import Mathlib

/-!
Verification of the findcc scanner (src/findcc.go).

The program reads a byte stream one byte at a time, keeps a sliding window of
the most recent run of ASCII digit bytes bounded by the configured length
`numlen`, and whenever the window is exactly `numlen` long it validates the
window with a checksum (a plain modulus-10 sum with -mod10, otherwise the Luhn
algorithm) and prints the match.  Bytes are modelled as natural numbers
(values 0..255), Go `int` values as `Int` where subtraction can go negative.
-/

namespace Findcc

/-- Digit test used by the scanner: Go runs `unicode.IsDigit(rune(buf[0]))`.
A byte converts to a rune in 0..0xFF, which is at most `unicode.MaxLatin1`,
and on that range `unicode.IsDigit` returns `'0' <= r && r <= '9'`,
i.e. `48 ≤ b && b ≤ 57`. -/
def isDigitByte (b : Nat) : Bool := decide (48 ≤ b) && decide (b ≤ 57)

/-- The trim loop `for len(digits) > *numlen { digits = digits[1:] }`:
drop bytes from the front while the window is longer than `numlen`. -/
def trimFront (numlen : Nat) : List Nat → List Nat
  | [] => []
  | d :: ds => if numlen < ds.length + 1 then trimFront numlen ds else d :: ds

/-- The checksum loop of `mod10Valid`:
`exp = 0; for _, d := range digits[:len(digits)-1] { exp = (exp + (int(d) - '0')) % 10 }`.
Go `%` on `int` is truncated division remainder, `Int.tmod`. -/
def mod10Exp (payload : List Nat) : Int :=
  payload.foldl (fun (e : Int) (d : Nat) => Int.tmod (e + ((d : Int) - 48)) 10) 0

/-- The final comparison of `mod10Valid`: `int(digits[len(digits)-1]-'0') == exp`.
The subtraction `digits[len(digits)-1]-'0'` happens in `byte` (uint8)
arithmetic, so for a byte `c < 256` it yields `(c + 256 - 48) % 256`, and only
then is converted to `int`.  `digits[:len(digits)-1]` is `dropLast`, and
`digits[len(digits)-1]` is the last element; the `getLastD` default stands for
the index-out-of-range panic on an empty slice, which the scanner never
triggers because it validates only windows of length `numlen ≥ 1`
(`mod10ValidChecked` below models the bounds checks explicitly). -/
def mod10Valid (digits : List Nat) : Bool :=
  (((digits.getLastD 0 + 208) % 256 : Nat) : Int) == mod10Exp digits.dropLast

/-- Bounds-explicit version of `mod10Valid`: `none` models the Go runtime
panic of `digits[:len(digits)-1]` and `digits[len(digits)-1]` on an empty
slice; on a non-empty slice both accesses are in bounds and the result is the
value `mod10Valid` computes. -/
def mod10ValidChecked (digits : List Nat) : Option Bool :=
  match digits.getLast? with
  | none => none
  | some c => some ((((c + 208) % 256 : Nat) : Int) == mod10Exp digits.dropLast)

/-- Modelled from the spec: the Luhn check comes from `luhn.Valid` of the
external package github.com/joeljunstrom/go-luhn, whose source is not part of
this repository.  Per the spec, the last character is the check digit;
starting from the rightmost payload digit and moving left every second digit
is doubled, a doubled value that is 10 or more has 9 subtracted, and the
window is valid iff the sum of the transformed payload digits and the check
digit is congruent to 0 modulo 10.  The list here is the window reversed, the
flag says whether the current digit gets doubled. -/
def luhnSumRev : List Nat → Bool → Int
  | [], _ => 0
  | d :: ds, dbl =>
    let v : Int := (d : Int) - 48
    let v2 : Int := if dbl then 2 * v else v
    let v3 : Int := if 10 ≤ v2 then v2 - 9 else v2
    v3 + luhnSumRev ds (!dbl)

/-- Modelled from the spec: `luhn.Valid(string(digits))` (see `luhnSumRev`). -/
def luhnValid (digits : List Nat) : Bool := luhnSumRev digits.reverse false % 10 == 0

/-- Configuration: the -n flag (window length, check digit included) and the
-mod10 flag (modulus-10 sum instead of Luhn). -/
structure Config where
  numlen : Nat
  mod10 : Bool
deriving DecidableEq

/-- Scan state of the read loop: the window `digits`, the newline count
`nline` and the byte count `nread`. -/
structure ScanState where
  digits : List Nat
  nline : Nat
  nread : Nat
deriving DecidableEq

/-- One printed match: the three columns `nread-len(digits)-1`, `nline`,
`string(digits)`. -/
structure MatchRec where
  offset : Int
  line : Nat
  number : List Nat
deriving DecidableEq

/-- The validation condition of the report guard:
`(*mod10 && mod10Valid(digits)) || (!*mod10 && luhn.Valid(string(digits)))`. -/
def checkValid (cfg : Config) (w : List Nat) : Bool :=
  (cfg.mod10 && mod10Valid w) || (!cfg.mod10 && luhnValid w)

/-- State at the top of the read loop. -/
def initState : ScanState := ⟨[], 0, 0⟩

/-- One iteration of the read loop on a successfully read byte `b`:
count the byte, count a newline, reset the window on a non-digit, otherwise
append and trim the window, and if the window has exactly `numlen` digits run
the configured checksum and print on success.  Besides the new state it
returns the matches printed (0 or 1) and the windows handed to a checksum
validator (0 or 1) during this iteration; the validator runs exactly when
`len(digits) == *numlen`, thanks to the short-circuit `&&`. -/
def stepByte (cfg : Config) (st : ScanState) (b : Nat) :
    ScanState × List MatchRec × List (List Nat) :=
  let nread := st.nread + 1
  let nline := if b = 10 then st.nline + 1 else st.nline
  if isDigitByte b then
    let digits := trimFront cfg.numlen (st.digits ++ [b])
    if digits.length = cfg.numlen then
      if checkValid cfg digits then
        (⟨digits, nline, nread⟩,
          [⟨(nread : Int) - (digits.length : Int) - 1, nline, digits⟩],
          [digits])
      else
        (⟨digits, nline, nread⟩, [], [digits])
    else
      (⟨digits, nline, nread⟩, [], [])
  else
    (⟨[], nline, nread⟩, [], [])

/-- The read loop applied to a list of bytes (reads that deliver one byte and
no error), collecting the printed matches and the validated windows. -/
def scanCore (cfg : Config) (st : ScanState) :
    List Nat → ScanState × List MatchRec × List (List Nat)
  | [] => (st, [], [])
  | b :: bs =>
    let r := stepByte cfg st b
    let r2 := scanCore cfg r.1 bs
    (r2.1, r.2.1 ++ r2.2.1, r.2.2 ++ r2.2.2)

/-- Scanner state after consuming the bytes `s` from the start of the run. -/
def scanFinal (cfg : Config) (s : List Nat) : ScanState := (scanCore cfg initState s).1

/-- Matches printed while consuming the bytes `s` from the start of the run. -/
def matchesOf (cfg : Config) (s : List Nat) : List MatchRec := (scanCore cfg initState s).2.1

/-- Windows handed to a checksum validator while consuming the bytes `s`. -/
def validations (cfg : Config) (s : List Nat) : List (List Nat) :=
  (scanCore cfg initState s).2.2

/-- Result of one `input.Read(buf)` call with a one-byte buffer: a byte, an
`io.EOF`, some other read error, or the `0 == n && nil == err` case. -/
inductive ReadEvent where
  | byte (b : Nat)
  | eof
  | readErr
  | zeroRead
deriving DecidableEq

/-- The read loop of `mymain` over a stream of read results: `io.EOF` returns
0, another read error returns -3, a zero-byte errorless read returns -4, and a
byte is processed by the loop body.  `none` means the stream of read results
was exhausted with the loop still running (a real stream would block).
Matches printed and windows validated before termination are collected. -/
def runLoop (cfg : Config) (st : ScanState) :
    List ReadEvent → Option Int × List MatchRec × List (List Nat)
  | [] => (none, [], [])
  | .eof :: _ => (some 0, [], [])
  | .readErr :: _ => (some (-3), [], [])
  | .zeroRead :: _ => (some (-4), [], [])
  | .byte b :: rest =>
    let r := stepByte cfg st b
    let r2 := runLoop cfg r.1 rest
    (r2.1, r.2.1 ++ r2.2.1, r.2.2 ++ r2.2.2)

/-- `mymain` after flag parsing: with exactly one file argument a failed open
returns -1 before any scanning; with more than one file argument it returns -2
before any scanning; otherwise the read loop runs on the input stream. -/
def mymain (cfg : Config) (nargs : Nat) (openOk : Bool) (events : List ReadEvent) :
    Option Int × List MatchRec × List (List Nat) :=
  if nargs = 1 then
    if openOk then runLoop cfg initState events
    else (some (-1), [], [])
  else if 1 < nargs then (some (-2), [], [])
  else runLoop cfg initState events

/-- Byte values of a string of ASCII characters. -/
def strBytes (s : String) : List Nat := s.data.map Char.toNat

/-- The run of digit bytes the input `p` ends with (longest all-digit
suffix). -/
def digitSuffix (p : List Nat) : List Nat := (p.reverse.takeWhile isDigitByte).reverse

/-- The window the scanner holds after consuming `p`: the trailing digit run
of `p`, trimmed from the front to at most `N` bytes. -/
def windowOf (N : Nat) (p : List Nat) : List Nat := trimFront N (digitSuffix p)

/-- The default configuration: window length 16, Luhn. -/
def cfgLuhn16 : Config := ⟨16, false⟩

/-- Window length 16 with -mod10. -/
def cfgMod16 : Config := ⟨16, true⟩

/-! Basic lemmas about the window operations. -/

theorem trimFront_eq_drop (N : Nat) : ∀ l : List Nat, trimFront N l = l.drop (l.length - N)
  | [] => by simp [trimFront]
  | d :: ds => by
    by_cases h : N < ds.length + 1
    · rw [trimFront, if_pos h, trimFront_eq_drop N ds]
      have h2 : (d :: ds).length - N = (ds.length - N) + 1 := by
        simp only [List.length_cons]; omega
      rw [h2, List.drop_succ_cons]
    · rw [trimFront, if_neg h]
      have h2 : (d :: ds).length - N = 0 := by simp only [List.length_cons]; omega
      rw [h2, List.drop_zero]

theorem trimFront_length (N : Nat) (l : List Nat) :
    (trimFront N l).length = min l.length N := by
  rw [trimFront_eq_drop, List.length_drop]; omega

theorem trimFront_of_le (N : Nat) (l : List Nat) (h : l.length ≤ N) :
    trimFront N l = l := by
  rw [trimFront_eq_drop]
  have h2 : l.length - N = 0 := by omega
  rw [h2, List.drop_zero]

theorem trimFront_idem_append (N : Nat) (l : List Nat) (b : Nat) :
    trimFront N (trimFront N l ++ [b]) = trimFront N (l ++ [b]) := by
  have hk : l.length - N ≤ l.length := Nat.sub_le _ _
  rw [trimFront_eq_drop N l, ← List.drop_append_of_le_length hk,
      trimFront_eq_drop, trimFront_eq_drop, List.drop_drop]
  congr 1
  simp only [List.length_drop, List.length_append, List.length_cons,
    List.length_nil]
  omega

theorem exists_append_trimFront (N : Nat) (l : List Nat) :
    ∃ t, t ++ trimFront N l = l :=
  ⟨l.take (l.length - N), by rw [trimFront_eq_drop]; exact List.take_append_drop _ _⟩

theorem eq_drop_of_append {t w q : List Nat} (h : t ++ w = q) :
    w = q.drop (q.length - w.length) := by
  subst h
  rw [List.length_append]
  have h2 : t.length + w.length - w.length = t.length := by omega
  rw [h2, List.drop_left]

/-! Lemmas about the trailing digit run. -/

theorem digitSuffix_append_digit (p : List Nat) (b : Nat) (hb : isDigitByte b = true) :
    digitSuffix (p ++ [b]) = digitSuffix p ++ [b] := by
  simp [digitSuffix, List.takeWhile_cons, hb]

theorem digitSuffix_append_nondigit (p : List Nat) (b : Nat) (hb : isDigitByte b = false) :
    digitSuffix (p ++ [b]) = [] := by
  simp [digitSuffix, List.takeWhile_cons, hb]

theorem mem_digitSuffix {p : List Nat} {d : Nat} (hd : d ∈ digitSuffix p) :
    isDigitByte d = true := by
  rw [digitSuffix, List.mem_reverse] at hd
  exact List.mem_takeWhile_imp hd

theorem digitSuffix_of_all (p : List Nat) (hp : ∀ d ∈ p, isDigitByte d = true) :
    digitSuffix p = p := by
  rw [digitSuffix, List.takeWhile_eq_self_iff.2 fun x hx => hp x (List.mem_reverse.1 hx),
    List.reverse_reverse]

theorem exists_append_digitSuffix (p : List Nat) : ∃ t, t ++ digitSuffix p = p := by
  refine ⟨(p.reverse.dropWhile isDigitByte).reverse, ?_⟩
  rw [digitSuffix, ← List.reverse_append, List.takeWhile_append_dropWhile,
    List.reverse_reverse]

theorem exists_append_windowOf (N : Nat) (p : List Nat) :
    ∃ t, t ++ windowOf N p = p := by
  obtain ⟨t1, ht1⟩ := exists_append_digitSuffix p
  obtain ⟨t2, ht2⟩ := exists_append_trimFront N (digitSuffix p)
  exact ⟨t1 ++ t2, by rw [windowOf, List.append_assoc, ht2, ht1]⟩

theorem mem_windowOf {N : Nat} {p : List Nat} {d : Nat} (hd : d ∈ windowOf N p) :
    isDigitByte d = true := by
  rw [windowOf, trimFront_eq_drop] at hd
  exact mem_digitSuffix (List.mem_of_mem_drop hd)

theorem isDigitByte_not_newline {b : Nat} (hb : isDigitByte b = true) : b ≠ 10 := by
  simp only [isDigitByte, Bool.and_eq_true, decide_eq_true_eq] at hb
  omega

/-! Structure of the scan over concatenated input. -/

theorem scanCore_append (cfg : Config) (st : ScanState) (x y : List Nat) :
    scanCore cfg st (x ++ y) =
      ((scanCore cfg (scanCore cfg st x).1 y).1,
       (scanCore cfg st x).2.1 ++ (scanCore cfg (scanCore cfg st x).1 y).2.1,
       (scanCore cfg st x).2.2 ++ (scanCore cfg (scanCore cfg st x).1 y).2.2) := by
  induction x generalizing st with
  | nil => simp [scanCore]
  | cons b bs ih => simp [scanCore, ih]

/-- The state component of a step does not depend on the checksum outcome:
on a digit the window is appended and trimmed, on a non-digit it is cleared,
and the counters advance the same way in every branch. -/
theorem stepByte_fst (cfg : Config) (st : ScanState) (b : Nat) :
    (stepByte cfg st b).1 =
      if isDigitByte b then
        ⟨trimFront cfg.numlen (st.digits ++ [b]),
          if b = 10 then st.nline + 1 else st.nline, st.nread + 1⟩
      else ⟨[], if b = 10 then st.nline + 1 else st.nline, st.nread + 1⟩ := by
  simp only [stepByte]
  split
  · split
    · split <;> rfl
    · rfl
  · rfl

/-- A step hands the window to a checksum validator exactly when the byte is a
digit and the window is full after the append-and-trim. -/
theorem stepByte_validations_eq (cfg : Config) (st : ScanState) (b : Nat) :
    (stepByte cfg st b).2.2 =
      if isDigitByte b = true ∧
          (trimFront cfg.numlen (st.digits ++ [b])).length = cfg.numlen
      then [trimFront cfg.numlen (st.digits ++ [b])] else [] := by
  by_cases h1 : isDigitByte b = true
  · by_cases h2 : (trimFront cfg.numlen (st.digits ++ [b])).length = cfg.numlen
    · by_cases h3 : checkValid cfg (trimFront cfg.numlen (st.digits ++ [b])) = true
      · simp [stepByte, h1, h2, h3]
      · simp [stepByte, h1, h2, h3]
    · simp [stepByte, h1, h2]
  · simp [stepByte, h1]

/-- A step prints a match exactly when the byte is a digit, the trimmed window
is full, and the configured checksum accepts it; the record carries the three
printed columns. -/
theorem stepByte_matches_eq (cfg : Config) (st : ScanState) (b : Nat) :
    (stepByte cfg st b).2.1 =
      if isDigitByte b = true ∧
          (trimFront cfg.numlen (st.digits ++ [b])).length = cfg.numlen ∧
          checkValid cfg (trimFront cfg.numlen (st.digits ++ [b])) = true
      then [⟨((st.nread + 1 : Nat) : Int) -
              ((trimFront cfg.numlen (st.digits ++ [b])).length : Int) - 1,
            if b = 10 then st.nline + 1 else st.nline,
            trimFront cfg.numlen (st.digits ++ [b])⟩]
      else [] := by
  by_cases h1 : isDigitByte b = true
  · by_cases h2 : (trimFront cfg.numlen (st.digits ++ [b])).length = cfg.numlen
    · by_cases h3 : checkValid cfg (trimFront cfg.numlen (st.digits ++ [b])) = true
      · simp [stepByte, h1, h2, h3]
      · simp [stepByte, h1, h2, h3]
    · simp [stepByte, h1, h2]
  · simp [stepByte, h1]

/-- The state after consuming `x` from a state whose window `w` is an already
trimmed digit run: the window is the trailing digit run of `w ++ x` trimmed to
`numlen`, the counters advance by the newline count and the length of `x`. -/
theorem scanCore_state (cfg : Config) (x : List Nat) :
    ∀ (w : List Nat) (l n : Nat),
      (∀ d ∈ w, isDigitByte d = true) → w.length ≤ cfg.numlen →
      (scanCore cfg ⟨w, l, n⟩ x).1 =
        ⟨trimFront cfg.numlen (digitSuffix (w ++ x)), l + x.count 10, n + x.length⟩ := by
  induction x using List.reverseRecOn with
  | nil =>
    intro w l n hw hwlen
    simp only [scanCore, List.append_nil, List.count_nil, List.length_nil,
      Nat.add_zero]
    rw [digitSuffix_of_all w hw, trimFront_of_le _ _ hwlen]
  | append_singleton x b ih =>
    intro w l n hw hwlen
    rw [scanCore_append, ih w l n hw hwlen]
    simp only [scanCore, stepByte_fst]
    by_cases hb : isDigitByte b = true
    · have hb10 : b ≠ 10 := isDigitByte_not_newline hb
      rw [if_pos hb, if_neg hb10]
      simp only [ScanState.mk.injEq]
      refine ⟨?_, ?_, ?_⟩
      · rw [← List.append_assoc, digitSuffix_append_digit _ _ hb,
          trimFront_idem_append]
      · simp [List.count_append, hb10, Ne.symm hb10]
      · simp [Nat.add_assoc]
    · rw [if_neg (by simp [hb]), ← List.append_assoc,
        digitSuffix_append_nondigit _ _ (by simpa using hb)]
      simp only [ScanState.mk.injEq]
      refine ⟨by simp [trimFront], ?_, by simp [Nat.add_assoc]⟩
      by_cases hb10 : b = 10 <;>
        simp [List.count_append, hb10, List.count_cons, Nat.add_assoc]
/-- The final state from the initial state, in closed form. -/
theorem scanFinal_eq (cfg : Config) (p : List Nat) :
    (scanCore cfg initState p).1 = ⟨windowOf cfg.numlen p, p.count 10, p.length⟩ := by
  have h := scanCore_state cfg p [] 0 0 (by simp) (by simp)
  simpa [initState, windowOf] using h

/-- The sequence of validated windows does not depend on the two counters of
the starting state, only on its window. -/
theorem scanCore_validations_counters (cfg : Config) :
    ∀ (x : List Nat) (w : List Nat) (l n l' n' : Nat),
      (scanCore cfg ⟨w, l, n⟩ x).2.2 = (scanCore cfg ⟨w, l', n'⟩ x).2.2 := by
  intro x
  induction x with
  | nil => intros; rfl
  | cons b bs ih =>
    intro w l n l' n'
    simp only [scanCore, stepByte_fst, stepByte_validations_eq]
    by_cases hb : isDigitByte b = true
    · simp only [hb, if_true]
      congr 1
      exact ih _ _ _ _ _
    · simp only [hb, Bool.false_eq_true, if_false, false_and]
      congr 1
      exact ih _ _ _ _ _

/-- Every window handed to a validator has exactly the configured length. -/
theorem length_of_mem_validations (cfg : Config) :
    ∀ (x : List Nat) (st : ScanState) (v : List Nat),
      v ∈ (scanCore cfg st x).2.2 → v.length = cfg.numlen := by
  intro x
  induction x with
  | nil => intro st v hv; simp [scanCore] at hv
  | cons b bs ih =>
    intro st v hv
    simp only [scanCore, List.mem_append] at hv
    rcases hv with hv | hv
    · rw [stepByte_validations_eq] at hv
      split at hv
      · next h => rw [List.mem_singleton] at hv; subst hv; exact h.2
      · simp at hv
    · exact ih _ _ hv

/-- Scanning a pure digit run from an empty window validates exactly the
sliding windows of the run: one validation for each of the `M + 1 - N`
positions when the run has `M ≥ N` digits, none when `M < N`. -/
theorem validations_digit_run (cfg : Config) (hN : 1 ≤ cfg.numlen) :
    ∀ (r : List Nat), (∀ d ∈ r, isDigitByte d = true) → ∀ (l n : Nat),
      (scanCore cfg ⟨[], l, n⟩ r).2.2 =
        (List.range (r.length + 1 - cfg.numlen)).map
          (fun i => (r.drop i).take cfg.numlen) := by
  intro r
  induction r using List.reverseRecOn with
  | nil =>
    intro _ l n
    have h0 : 1 - cfg.numlen = 0 := by omega
    simp [scanCore, h0]
  | append_singleton r d ih =>
    intro hall l n
    have hr : ∀ x ∈ r, isDigitByte x = true := fun x hx => hall x (by simp [hx])
    have hd : isDigitByte d = true := hall d (by simp)
    rw [scanCore_append]
    have hst := scanCore_state cfg r [] l n (by simp) (by simp)
    simp only [List.nil_append] at hst
    rw [digitSuffix_of_all r hr] at hst
    have happ : (scanCore cfg (scanCore cfg ⟨[], l, n⟩ r).1 [d]).2.2 =
        (stepByte cfg (scanCore cfg ⟨[], l, n⟩ r).1 d).2.2 := by
      simp [scanCore]
    rw [ih hr l n]
    rw [happ, hst, stepByte_validations_eq]
    simp only [trimFront_idem_append]
    have hlen : (trimFront cfg.numlen (r ++ [d])).length = min (r.length + 1) cfg.numlen := by
      rw [trimFront_length]; simp
    by_cases hfull : cfg.numlen ≤ r.length + 1
    · have hguard : (trimFront cfg.numlen (r ++ [d])).length = cfg.numlen := by omega
      rw [if_pos ⟨hd, hguard⟩]
      have hsucc : (r ++ [d]).length + 1 - cfg.numlen = (r.length + 1 - cfg.numlen) + 1 := by
        simp; omega
      rw [hsucc, List.range_succ, List.map_append]
      congr 1
      · apply List.map_congr_left
        intro i hi
        rw [List.mem_range] at hi
        rw [List.drop_append_of_le_length (by omega),
          List.take_append_of_le_length (by rw [List.length_drop]; omega)]
      · simp only [List.map_cons, List.map_nil]
        congr 1
        rw [trimFront_eq_drop]
        rw [show (r ++ [d]).length - cfg.numlen = r.length + 1 - cfg.numlen by simp]
        rw [List.take_of_length_le (by rw [List.length_drop]; simp; omega)]
    · have hguard : ¬((trimFront cfg.numlen (r ++ [d])).length = cfg.numlen) := by omega
      rw [if_neg (by intro h; exact hguard h.2)]
      have h1 : r.length + 1 - cfg.numlen = 0 := by omega
      have h2 : r.length + 1 + 1 - cfg.numlen = 0 := by omega
      simp [h1, h2]

/-- Every printed match is a full window of the input: there is a window
start index `i` such that the printed number is the `numlen` input bytes at
`i`, the printed offset is `i - 1` (the byte-count arithmetic
`nread - len(digits) - 1` lands one before the window start), and the printed
line is the number of newlines strictly before the window start. -/
theorem mem_matchesOf_structure (cfg : Config) :
    ∀ (s : List Nat) (m : MatchRec), m ∈ matchesOf cfg s →
      ∃ i, i + cfg.numlen ≤ s.length ∧
        m.number = (s.drop i).take cfg.numlen ∧
        m.number.length = cfg.numlen ∧
        m.offset = (i : Int) - 1 ∧
        m.line = (s.take i).count 10 := by
  intro s
  induction s using List.reverseRecOn with
  | nil => intro m hm; simp [matchesOf, scanCore] at hm
  | append_singleton p b ih =>
    intro m hm
    have hm' : m ∈ (scanCore cfg initState p).2.1 ++
        (scanCore cfg (scanCore cfg initState p).1 [b]).2.1 := by
      rw [matchesOf, scanCore_append] at hm
      exact hm
    rcases List.mem_append.1 hm' with hm1 | hm2
    · obtain ⟨i, h1, h2, h3, h4, h5⟩ := ih m hm1
      refine ⟨i, ?_, ?_, h3, h4, ?_⟩
      · simp only [List.length_append, List.length_cons, List.length_nil]; omega
      · rw [List.drop_append_of_le_length (by omega),
          List.take_append_of_le_length (by rw [List.length_drop]; omega)]
        exact h2
      · rw [List.take_append_of_le_length (by omega)]
        exact h5
    · have hm3 : m ∈ (stepByte cfg (scanCore cfg initState p).1 b).2.1 := by
        simpa [scanCore] using hm2
      rw [scanFinal_eq, stepByte_matches_eq] at hm3
      split at hm3
      case isFalse => simp at hm3
      case isTrue h =>
        obtain ⟨hb, hguard, _⟩ := h
        rw [List.mem_singleton] at hm3
        subst hm3
        have hb10 : b ≠ 10 := isDigitByte_not_newline hb
        have hwin : trimFront cfg.numlen (windowOf cfg.numlen p ++ [b]) =
            windowOf cfg.numlen (p ++ [b]) := by
          rw [windowOf, windowOf, trimFront_idem_append,
            digitSuffix_append_digit _ _ hb]
        rw [hwin] at hguard ⊢
        set q : List Nat := p ++ [b] with hq
        obtain ⟨t, ht⟩ := exists_append_windowOf cfg.numlen q
        have hW : windowOf cfg.numlen q = q.drop (q.length - cfg.numlen) := by
          have h := eq_drop_of_append ht
          rw [hguard] at h
          exact h
        have hNq : cfg.numlen ≤ q.length := by
          have := congrArg List.length ht
          rw [List.length_append, hguard] at this
          omega
        have hqlen : q.length = p.length + 1 := by simp [hq]
        refine ⟨q.length - cfg.numlen, by omega, ?_, ?_, ?_, ?_⟩
        · dsimp only
          rw [hW, List.take_of_length_le (by rw [List.length_drop]; omega)]
        · dsimp only
          exact hguard
        · dsimp only
          rw [hguard, hqlen]
          omega
        · dsimp only
          rw [if_neg hb10]
          have hsplit : (q.take (q.length - cfg.numlen)).count 10 +
              (q.drop (q.length - cfg.numlen)).count 10 = q.count 10 := by
            rw [← List.count_append, List.take_append_drop]
          have hdrop0 : (q.drop (q.length - cfg.numlen)).count 10 = 0 := by
            rw [List.count_eq_zero]
            intro hmem
            rw [← hW] at hmem
            have := mem_windowOf hmem
            simp [isDigitByte] at this
          have hqc : q.count 10 = p.count 10 := by
            simp [hq, List.count_append, List.count_cons, hb10, Ne.symm hb10]
          omega

/-! Lemmas about the modulus-10 validator. -/

theorem mod10Exp_loop :
    ∀ (p : List Nat), (∀ d ∈ p, 48 ≤ d ∧ d ≤ 57) →
    ∀ e : Int, 0 ≤ e → e < 10 →
      p.foldl (fun (e : Int) (d : Nat) => Int.tmod (e + ((d : Int) - 48)) 10) e =
        (e + (p.map fun (d : Nat) => (d : Int) - 48).sum) % 10 := by
  intro p
  induction p with
  | nil => intro _ e he1 he2; simp [Int.emod_eq_of_lt he1 he2]
  | cons d ds ih =>
    intro hp e he1 he2
    have hd := hp d (by simp)
    have hds : ∀ x ∈ ds, 48 ≤ x ∧ x ≤ 57 := fun x hx => hp x (by simp [hx])
    simp only [List.foldl_cons]
    have hd1 : 48 ≤ d := hd.1
    have hnn : (0 : Int) ≤ e + ((d : Int) - 48) := by omega
    rw [Int.tmod_eq_emod hnn (by norm_num)]
    have h1 : 0 ≤ (e + ((d : Int) - 48)) % 10 := Int.emod_nonneg _ (by norm_num)
    have h2 : (e + ((d : Int) - 48)) % 10 < 10 := Int.emod_lt_of_pos _ (by norm_num)
    rw [ih hds _ h1 h2, Int.emod_add_emod, List.map_cons, List.sum_cons, add_assoc]

theorem mod10Exp_eq_sum (p : List Nat) (hp : ∀ d ∈ p, 48 ≤ d ∧ d ≤ 57) :
    mod10Exp p = (p.map fun (d : Nat) => (d : Int) - 48).sum % 10 := by
  have h := mod10Exp_loop p hp 0 le_rfl (by norm_num)
  simpa [mod10Exp] using h

theorem mod10Valid_concat (p : List Nat) (c : Nat) :
    mod10Valid (p ++ [c]) = ((((c + 208) % 256 : Nat) : Int) == mod10Exp p) := by
  rw [mod10Valid, List.getLastD_concat, List.dropLast_concat]

theorem digit_byte_value (c : Nat) (hc : 48 ≤ c ∧ c ≤ 57) :
    (((c + 208) % 256 : Nat) : Int) = (c : Int) - 48 := by
  have h : (c + 208) % 256 = c - 48 := by omega
  rw [h]
  omega

theorem mod10ValidChecked_concat (t : List Nat) (c : Nat) :
    mod10ValidChecked (t ++ [c]) = some (mod10Valid (t ++ [c])) := by
  simp only [mod10ValidChecked, List.getLast?_concat, List.dropLast_concat,
    mod10Valid_concat]

theorem mod10ValidChecked_of_ne_nil (w : List Nat) (hw : w ≠ []) :
    mod10ValidChecked w = some (mod10Valid w) := by
  rcases List.eq_nil_or_concat w with rfl | ⟨t, c, rfl⟩
  · exact absurd rfl hw
  · rw [List.concat_eq_append]
    exact mod10ValidChecked_concat t c

theorem validations_append_core (cfg : Config) (st : ScanState) (x y : List Nat) :
    (scanCore cfg st (x ++ y)).2.2 =
      (scanCore cfg st x).2.2 ++ (scanCore cfg (scanCore cfg st x).1 y).2.2 := by
  rw [scanCore_append]

/-- Processing a stream whose next byte is a non-digit forgets the window and
the counters as far as future validations are concerned. -/
theorem validations_from_nondigit_head (cfg : Config) (w : List Nat) (l n : Nat)
    (c : Nat) (hc : isDigitByte c = false) (b0 : List Nat) :
    (scanCore cfg ⟨w, l, n⟩ (c :: b0)).2.2 = validations cfg (c :: b0) := by
  simp only [scanCore, validations, initState]
  rw [stepByte_validations_eq, stepByte_validations_eq,
    if_neg (by simp [hc]), if_neg (by simp [hc])]
  simp only [List.nil_append]
  have h1 := stepByte_fst cfg ⟨w, l, n⟩ c
  rw [if_neg (by simp [hc])] at h1
  have h2 := stepByte_fst cfg ⟨[], 0, 0⟩ c
  rw [if_neg (by simp [hc])] at h2
  rw [h1, h2]
  exact scanCore_validations_counters cfg b0 [] _ _ _ _

/-- The read loop on a list of delivered bytes followed by further events:
the borne matches and validated windows are those of the plain byte scan. -/
theorem runLoop_bytes (cfg : Config) :
    ∀ (bs : List Nat) (st : ScanState) (rest : List ReadEvent),
      runLoop cfg st (bs.map ReadEvent.byte ++ rest) =
        ((runLoop cfg (scanCore cfg st bs).1 rest).1,
         (scanCore cfg st bs).2.1 ++ (runLoop cfg (scanCore cfg st bs).1 rest).2.1,
         (scanCore cfg st bs).2.2 ++ (runLoop cfg (scanCore cfg st bs).1 rest).2.2) := by
  intro bs
  induction bs with
  | nil => intro st rest; simp [scanCore]
  | cons b bs ih =>
    intro st rest
    have hL : runLoop cfg st (ReadEvent.byte b :: (List.map ReadEvent.byte bs ++ rest)) =
        ((runLoop cfg (stepByte cfg st b).1 (List.map ReadEvent.byte bs ++ rest)).1,
         (stepByte cfg st b).2.1 ++
           (runLoop cfg (stepByte cfg st b).1 (List.map ReadEvent.byte bs ++ rest)).2.1,
         (stepByte cfg st b).2.2 ++
           (runLoop cfg (stepByte cfg st b).1 (List.map ReadEvent.byte bs ++ rest)).2.2) := rfl
    have hS : scanCore cfg st (b :: bs) =
        ((scanCore cfg (stepByte cfg st b).1 bs).1,
         (stepByte cfg st b).2.1 ++ (scanCore cfg (stepByte cfg st b).1 bs).2.1,
         (stepByte cfg st b).2.2 ++ (scanCore cfg (stepByte cfg st b).1 bs).2.2) := rfl
    rw [List.map_cons, List.cons_append, hL, ih, hS]
    simp [List.append_assoc]

/-! Claim theorems. -/

/-- C1: the spec fixes the reported start offset as `total-bytes-read - N - 1`
and asserts this is the 0-based offset of the window's first byte, with the
canonical Luhn-valid input "1234567812345670" (window length 16, Luhn)
producing its single full-string match at offset 0, line 0.  Evaluating the
code on that input: exactly one match covering the full string at line 0, but
its reported offset is -1, not 0 — with the check digit inside the window,
`nread-len(digits)-1` is one less than the window's first-byte offset. -/
theorem offset_formula_reports_minus_one_on_example :
    matchesOf cfgLuhn16 (strBytes "1234567812345670") =
      [⟨-1, 0, strBytes "1234567812345670"⟩] ∧ (-1 : Int) ≠ 0 :=
  ⟨by decide, by decide⟩

/-- C2 counterexample: the input "\nA1234567812345674" (window length 16,
-mod10) has exactly one newline strictly before the match's window start (the
window starts at byte index 2), so the claim predicts a reported line number
of 1 + 1 = 2; the program reports 1. -/
theorem line_number_one_greater_counterexample :
    ((strBytes "\nA1234567812345674").take 2).count 10 = 1 ∧
    (matchesOf cfgMod16 (strBytes "\nA1234567812345674")).map MatchRec.line = [1] ∧
    (1 : Nat) ≠ 1 + 1 :=
  ⟨by decide, by decide, by decide⟩

/-- C2 (amended): for every match the reported line number equals exactly the
number of newline characters occurring strictly before the match's window
start (a 0-based line count), not one greater.  The window start `i` is pinned
to this very match: the record's reported offset is `i - 1` (which determines
`i` uniquely), and the record's number is the window of the input at `i`. -/
theorem line_number_counts_newlines_before_match (cfg : Config) (s : List Nat)
    (m : MatchRec) (hm : m ∈ matchesOf cfg s) :
    ∃ i, i + cfg.numlen ≤ s.length ∧
      m.number = (s.drop i).take cfg.numlen ∧
      m.offset = (i : Int) - 1 ∧
      m.line = (s.take i).count 10 := by
  obtain ⟨i, h1, h2, _, h4, h5⟩ := mem_matchesOf_structure cfg s m hm
  exact ⟨i, h1, h2, h4, h5⟩

theorem line_number_counts_newlines_before_match_witness :
    ∃ i, i + cfgMod16.numlen ≤ (strBytes "\nA1234567812345674").length ∧
      (⟨1, 1, strBytes "1234567812345674"⟩ : MatchRec).number =
        ((strBytes "\nA1234567812345674").drop i).take cfgMod16.numlen ∧
      (⟨1, 1, strBytes "1234567812345674"⟩ : MatchRec).offset = (i : Int) - 1 ∧
      (⟨1, 1, strBytes "1234567812345674"⟩ : MatchRec).line =
        ((strBytes "\nA1234567812345674").take i).count 10 :=
  line_number_counts_newlines_before_match cfgMod16 (strBytes "\nA1234567812345674")
    ⟨1, 1, strBytes "1234567812345674"⟩ (by decide)

/-- C3: for a window `p ++ [c]` of ASCII digit characters, the modulus-10
validator accepts exactly when the numeric value of the check digit `c`
equals the sum of the payload digit values modulo 10 — true for that one
check digit, false for every other. -/
theorem mod10Valid_check_digit (p : List Nat) (c : Nat)
    (hp : ∀ d ∈ p, 48 ≤ d ∧ d ≤ 57) (hc : 48 ≤ c ∧ c ≤ 57) :
    (mod10Valid (p ++ [c]) = true ↔
      (c : Int) - 48 = (p.map fun (d : Nat) => (d : Int) - 48).sum % 10) := by
  rw [mod10Valid_concat, digit_byte_value c hc, mod10Exp_eq_sum p hp, beq_iff_eq]

theorem mod10Valid_check_digit_witness :
    (mod10Valid (strBytes "123456781234567" ++ [52]) = true ↔
      (52 : Int) - 48 =
        ((strBytes "123456781234567").map fun (d : Nat) => (d : Int) - 48).sum % 10) :=
  mod10Valid_check_digit (strBytes "123456781234567") 52 (by decide) (by decide)

/-- C4: with a positive configured window length the window never holds more
than `numlen` bytes at any point of any scan; appending one byte and trimming
yields length `min (len+1) numlen`, so a window that would exceed `numlen` is
trimmed from the front to exactly `numlen`; and every window handed to a
validator has length exactly `numlen`. -/
theorem window_never_exceeds (cfg : Config) (hN : 1 ≤ cfg.numlen) (s : List Nat) :
    (∀ k, ((scanCore cfg initState (s.take k)).1.digits).length ≤ cfg.numlen) ∧
    (∀ (w : List Nat) (b : Nat),
      (trimFront cfg.numlen (w ++ [b])).length = min (w.length + 1) cfg.numlen) ∧
    (∀ v ∈ validations cfg s, v.length = cfg.numlen) := by
  refine ⟨?_, ?_, ?_⟩
  · intro k
    rw [scanFinal_eq]
    show (windowOf cfg.numlen (s.take k)).length ≤ cfg.numlen
    rw [windowOf, trimFront_length]
    omega
  · intro w b
    rw [trimFront_length]
    simp
  · intro v hv
    exact length_of_mem_validations cfg s initState v hv

theorem window_never_exceeds_witness :
    ((scanCore cfgLuhn16 initState ((strBytes "abc12345678901234567890").take 23)).1.digits).length ≤
      cfgLuhn16.numlen :=
  (window_never_exceeds cfgLuhn16 (by decide) (strBytes "abc12345678901234567890")).1 23

/-- C5: a maximal digit run `r` (preceded by stream start or a non-digit,
followed by stream end or a non-digit) of length `M` is validated exactly once
at each of its sliding window positions — the validated windows contributed by
the run are precisely `r[i..i+N)` for `i = 0..M-N`, which is `M - N + 1`
windows when `M ≥ N` and none when `M < N`. -/
theorem validations_of_maximal_run (cfg : Config) (hN : 1 ≤ cfg.numlen)
    (a r b : List Nat)
    (ha : a = [] ∨ ∃ a0 c, a = a0 ++ [c] ∧ isDigitByte c = false)
    (hr : ∀ d ∈ r, isDigitByte d = true)
    (hb : b = [] ∨ ∃ c b0, b = c :: b0 ∧ isDigitByte c = false) :
    validations cfg (a ++ r ++ b) =
      validations cfg a ++
      (List.range (r.length + 1 - cfg.numlen)).map
        (fun i => (r.drop i).take cfg.numlen) ++
      validations cfg b := by
  have hwinA : (scanCore cfg initState a).1 = ⟨[], a.count 10, a.length⟩ := by
    rw [scanFinal_eq]
    rcases ha with rfl | ⟨a0, c, rfl, hc⟩
    · rfl
    · rw [windowOf, digitSuffix_append_nondigit _ _ hc]
      rfl
  have hmid : (scanCore cfg (⟨[], a.count 10, a.length⟩ : ScanState) r).1 =
      ⟨trimFront cfg.numlen r, a.count 10 + r.count 10, a.length + r.length⟩ := by
    have h := scanCore_state cfg r [] (a.count 10) (a.length) (by simp) (by simp)
    rw [List.nil_append, digitSuffix_of_all r hr] at h
    exact h
  show (scanCore cfg initState (a ++ r ++ b)).2.2 = _
  rw [List.append_assoc, validations_append_core, hwinA, validations_append_core,
    hmid, validations_digit_run cfg hN r hr (a.count 10) (a.length)]
  rcases hb with rfl | ⟨c, b0, rfl, hc⟩
  · simp [scanCore, validations]
  · rw [validations_from_nondigit_head cfg _ _ _ c hc b0]
    simp [List.append_assoc, validations]

theorem validations_of_maximal_run_witness :
    validations ⟨2, true⟩ ([65] ++ [49, 50, 51] ++ [66]) =
      validations ⟨2, true⟩ [65] ++
      (List.range (([49, 50, 51] : List Nat).length + 1 - 2)).map
        (fun i => (([49, 50, 51] : List Nat).drop i).take 2) ++
      validations ⟨2, true⟩ [66] :=
  validations_of_maximal_run ⟨2, true⟩ (by decide) [65] [49, 50, 51] [66]
    (Or.inr ⟨[], 65, rfl, by decide⟩) (by decide) (Or.inr ⟨66, [], rfl, by decide⟩)

/-- C6: a non-digit byte clears the window, discarding any partially
accumulated digits, and triggers neither a validator call nor a match. -/
theorem nondigit_clears_window (cfg : Config) (st : ScanState) (b : Nat)
    (hb : isDigitByte b = false) :
    (stepByte cfg st b).1.digits = [] ∧
    (stepByte cfg st b).2.2 = [] ∧
    (stepByte cfg st b).2.1 = [] := by
  refine ⟨?_, ?_, ?_⟩
  · rw [stepByte_fst, if_neg (by simp [hb])]
  · rw [stepByte_validations_eq, if_neg (by simp [hb])]
  · rw [stepByte_matches_eq, if_neg (by simp [hb])]

theorem nondigit_clears_window_witness :
    (stepByte cfgLuhn16 ⟨[49, 50], 0, 2⟩ 97).1.digits = [] ∧
    (stepByte cfgLuhn16 ⟨[49, 50], 0, 2⟩ 97).2.2 = [] ∧
    (stepByte cfgLuhn16 ⟨[49, 50], 0, 2⟩ 97).2.1 = [] :=
  nondigit_clears_window cfgLuhn16 ⟨[49, 50], 0, 2⟩ 97 (by decide)

/-- C7: the loop returns 0 at end-of-stream with the partial window discarded
silently (the terminating read contributes no validation and no match), and
each failure class has its own non-zero code: -1 failed file open, -2 more
than one file argument, -3 stream read error, -4 zero-byte errorless read; in
particular the multiple-file code -2 differs from the file-open code -1. -/
theorem mymain_exit_codes (cfg : Config) :
    (∀ events, mymain cfg 1 false events = (some (-1), [], [])) ∧
    (∀ (nargs : Nat) (ok : Bool) (events : List ReadEvent), 2 ≤ nargs →
      mymain cfg nargs ok events = (some (-2), [], [])) ∧
    (∀ bs : List Nat,
      mymain cfg 0 true (bs.map ReadEvent.byte ++ [ReadEvent.eof]) =
        (some 0, matchesOf cfg bs, validations cfg bs)) ∧
    (∀ bs : List Nat,
      mymain cfg 0 true (bs.map ReadEvent.byte ++ [ReadEvent.readErr]) =
        (some (-3), matchesOf cfg bs, validations cfg bs)) ∧
    (∀ bs : List Nat,
      mymain cfg 0 true (bs.map ReadEvent.byte ++ [ReadEvent.zeroRead]) =
        (some (-4), matchesOf cfg bs, validations cfg bs)) ∧
    ((-1 : Int) ≠ 0 ∧ (-2 : Int) ≠ 0 ∧ (-3 : Int) ≠ 0 ∧ (-4 : Int) ≠ 0 ∧
      (-2 : Int) ≠ -1 ∧ (-3 : Int) ≠ -1 ∧ (-4 : Int) ≠ -1 ∧
      (-3 : Int) ≠ -2 ∧ (-4 : Int) ≠ -2 ∧ (-4 : Int) ≠ -3) := by
  refine ⟨?_, ?_, ?_, ?_, ?_, by norm_num⟩
  · intro events; simp [mymain]
  · intro nargs ok events hn
    have h1 : ¬(nargs = 1) := by omega
    have h2 : 1 < nargs := by omega
    simp [mymain, h1, h2]
  · intro bs
    simp only [mymain, if_neg (by norm_num : ¬(0 = 1)), if_neg (by norm_num : ¬(1 < 0))]
    rw [runLoop_bytes]
    simp [runLoop, matchesOf, validations]
  · intro bs
    simp only [mymain, if_neg (by norm_num : ¬(0 = 1)), if_neg (by norm_num : ¬(1 < 0))]
    rw [runLoop_bytes]
    simp [runLoop, matchesOf, validations]
  · intro bs
    simp only [mymain, if_neg (by norm_num : ¬(0 = 1)), if_neg (by norm_num : ¬(1 < 0))]
    rw [runLoop_bytes]
    simp [runLoop, matchesOf, validations]

theorem mymain_exit_codes_witness :
    mymain cfgLuhn16 2 true [] = (some (-2), [], []) :=
  (mymain_exit_codes cfgLuhn16).2.1 2 true [] (by decide)

/-- C8: a byte is classified as a digit — and appended to the window — iff it
is one of the ASCII bytes 0x30..0x39; any other byte value clears the window
instead, and consequently every byte ever held in the window during a scan is
an ASCII digit byte. -/
theorem digit_classification (cfg : Config) (s : List Nat) :
    (∀ b : Nat, b ≤ 255 → (isDigitByte b = true ↔ 48 ≤ b ∧ b ≤ 57)) ∧
    (∀ (st : ScanState) (b : Nat), isDigitByte b = true →
      (stepByte cfg st b).1.digits = trimFront cfg.numlen (st.digits ++ [b])) ∧
    (∀ (st : ScanState) (b : Nat), isDigitByte b = false →
      (stepByte cfg st b).1.digits = []) ∧
    (∀ k d, d ∈ (scanCore cfg initState (s.take k)).1.digits → 48 ≤ d ∧ d ≤ 57) := by
  refine ⟨?_, ?_, ?_, ?_⟩
  · intro b _
    simp [isDigitByte]
  · intro st b hb
    rw [stepByte_fst, if_pos hb]
  · intro st b hb
    rw [stepByte_fst, if_neg (by simp [hb])]
  · intro k d hd
    rw [scanFinal_eq] at hd
    have h : isDigitByte d = true := mem_windowOf (by exact hd)
    simpa [isDigitByte] using h

theorem digit_classification_witness :
    isDigitByte 53 = true ↔ 48 ≤ 53 ∧ 53 ≤ 57 :=
  (digit_classification cfgLuhn16 []).1 53 (by decide)

/-- C9: permuting the payload of a window while keeping the check digit fixed
in last position does not change the modulus-10 verdict. -/
theorem mod10Valid_payload_perm (p q : List Nat) (c : Nat)
    (hpq : p.Perm q) (hp : ∀ d ∈ p, 48 ≤ d ∧ d ≤ 57) :
    mod10Valid (q ++ [c]) = mod10Valid (p ++ [c]) := by
  have hq : ∀ d ∈ q, 48 ≤ d ∧ d ≤ 57 := fun d hd => hp d (hpq.mem_iff.2 hd)
  rw [mod10Valid_concat, mod10Valid_concat, mod10Exp_eq_sum p hp,
    mod10Exp_eq_sum q hq, (hpq.map fun (d : Nat) => (d : Int) - 48).sum_eq]

theorem mod10Valid_payload_perm_witness :
    mod10Valid ([50, 49] ++ [51]) = mod10Valid ([49, 50] ++ [51]) :=
  mod10Valid_payload_perm [49, 50] [50, 49] 51 (by decide) (by decide)

/-- C10: on a non-empty window both accesses of the modulus-10 validator (the
payload slice of all but the last byte, and the last byte) are in bounds; on
the empty window the access is out of bounds; and with a positive configured
window length every window the scanner hands to a validator has length
exactly `numlen`, hence is non-empty, so the out-of-bounds case is never
reached during a scan. -/
theorem mod10Valid_bounds (cfg : Config) (hN : 1 ≤ cfg.numlen) :
    (∀ w : List Nat, w ≠ [] → mod10ValidChecked w = some (mod10Valid w)) ∧
    mod10ValidChecked [] = none ∧
    (∀ (s : List Nat) (v : List Nat), v ∈ validations cfg s →
      v.length = cfg.numlen ∧ v ≠ [] ∧ (mod10ValidChecked v).isSome = true) := by
  refine ⟨mod10ValidChecked_of_ne_nil, by decide, ?_⟩
  intro s v hv
  have hlen := length_of_mem_validations cfg s initState v hv
  have hne : v ≠ [] := by
    intro h
    subst h
    simp at hlen
    omega
  refine ⟨hlen, hne, ?_⟩
  rw [mod10ValidChecked_of_ne_nil v hne]
  rfl

theorem mod10Valid_bounds_witness :
    mod10ValidChecked [48] = some (mod10Valid [48]) :=
  (mod10Valid_bounds cfgLuhn16 (by decide)).1 [48] (by decide)

end Findcc
